import Mathlib

/-!
Verification of the gocov coverage-aggregation and diff-coverage engine.

This file shallowly embeds the Go code of the repository
(`analyzer.go`, the concurrent aggregator, `diff.go`, `diff_coverage.go`)
into Lean and settles the specification claims against it.

Modelling conventions:
* Go strings are modelled as `List Char` (`GoStr`); all inputs of interest
  are ASCII, where Go byte indexing and char indexing coincide.
* Go `int` is modelled as `Int`; no property below involves 64-bit
  wraparound, so machine overflow is not modelled.
* Go maps are modelled as association lists with unique keys, looked up
  with `alookup`; Go map equality (`reflect.DeepEqual`) is key-set plus
  per-key value equality, expressed by `covMapEqv`.
* A Go runtime panic (nil-pointer dereference, out-of-range slice) is
  modelled by an `Option` result being `none`.
* Functions of external collaborators (the standard library glob matcher
  `filepath.Match`, `filepath.Clean` / `Join` / `Dir` / `Base`,
  `strconv.Atoi`, `bufio.Scanner` line splitting) are modelled from their
  documented behaviour, since their sources are not part of the repository.
-/

/-- Go strings, as lists of characters. -/
abbrev GoStr := List Char

/-- Coerce a Lean string literal into the Go string model. -/
def gs (s : String) : GoStr := s.data

/-- `strings.HasPrefix(s, pre)`. -/
def goHasPre (s pre : GoStr) : Bool := pre.isPrefixOf s

/-- `strings.HasSuffix(s, suf)`. -/
def goHasSuf (s suf : GoStr) : Bool := suf.isSuffixOf s

/-- `strings.Contains(s, sub)`: `sub` occurs as a contiguous substring of `s`. -/
def goContainsSub (s sub : GoStr) : Bool :=
  (List.range (s.length + 1)).any fun i => sub.isPrefixOf (s.drop i)

/-- `strings.TrimPrefix(s, pre)`. -/
def goTrimPre (s pre : GoStr) : GoStr :=
  if pre.isPrefixOf s then s.drop pre.length else s

/-- `strings.Trim(s, "*")`: remove leading and trailing `*` characters. -/
def goTrimStars (s : GoStr) : GoStr :=
  ((s.dropWhile (· = '*')).reverse.dropWhile (· = '*')).reverse

/-- `strings.Split(s, sep)` for a one-character separator
(the code only splits on `"/"`, `" "`, `","` and `"\n"`). -/
def goSplit (s : GoStr) (sep : Char) : List GoStr := s.splitOn sep

/-- Join a list of strings with a one-character separator
(`strings.Join(parts, sep)`). -/
def goJoinSep (parts : List GoStr) (sep : Char) : GoStr :=
  List.intercalate [sep] parts

/-- `strconv.Atoi`, with the error discarded as the code does: a string that
is not an optionally signed run of decimal digits yields `0`.  (The int64
range clamp of `Atoi` is not modelled: no property below involves numerals
anywhere near `2^63`.) -/
def goAtoi (s : GoStr) : Int :=
  let core : GoStr → Int := fun digits =>
    if digits = [] ∨ ¬ digits.all (·.isDigit) then 0
    else (digits.foldl (fun acc d => acc * 10 + (d.toNat - '0'.toNat)) 0 : Nat)
  match s with
  | [] => 0
  | c :: rest =>
    if c = '-' then - core rest
    else if c = '+' then core rest
    else core s

/-- `path.Clean` (equal to `filepath.Clean` on Unix): lexical path cleaning.
Modelled from the spec of the standard library (an external collaborator):
iteratively drop empty and `.` components, resolve `..` against the stack,
keep leading `..` on relative paths, drop `..` at the root of rooted paths. -/
def goCleanStack (rooted : Bool) : List GoStr → List GoStr → List GoStr
  | stack, [] => stack.reverse
  | stack, e :: rest =>
    if e = [] ∨ e = gs "." then goCleanStack rooted stack rest
    else if e = gs ".." then
      match stack with
      | top :: stackRest =>
        if top = gs ".." then goCleanStack rooted (e :: stack) rest
        else goCleanStack rooted stackRest rest
      | [] =>
        if rooted then goCleanStack rooted [] rest
        else goCleanStack rooted [e] rest
    else goCleanStack rooted (e :: stack) rest

/-- `path.Clean`. -/
def goClean (p : GoStr) : GoStr :=
  if p = [] then gs "."
  else
    let rooted := goHasPre p (gs "/")
    let elems := goCleanStack rooted [] (goSplit p '/')
    let out := (if rooted then gs "/" else []) ++ goJoinSep elems '/'
    if out = [] then gs "." else out

/-- `filepath.Join(elems...)`: skip to the first non-empty element, join the
rest with `/`, and `Clean` the result; all-empty input yields the empty
string. -/
def goJoin (elems : List GoStr) : GoStr :=
  match elems.dropWhile (· = []) with
  | [] => []
  | nonEmptyTail => goClean (goJoinSep nonEmptyTail '/')

/-- `filepath.Dir(path)`: everything up to and including the final slash,
cleaned; a path without a slash yields `"."`. -/
def goDir (path : GoStr) : GoStr :=
  goClean ((path.reverse.dropWhile (· ≠ '/')).reverse)

/-- `filepath.Base(path)`: the last element of the path, after dropping
trailing slashes; empty input yields `"."`, an all-slash input yields `"/"`. -/
def goBase (path : GoStr) : GoStr :=
  if path = [] then gs "."
  else
    let p := (path.reverse.dropWhile (· = '/')).reverse
    if p = [] then gs "/"
    else (p.reverse.takeWhile (· ≠ '/')).reverse

/-- `bufio.Scanner` with the default line splitter: split on `'\n'`,
drop a final empty segment, and strip one trailing `'\r'` per line. -/
def goScanLines (s : GoStr) : List GoStr :=
  if s = [] then []
  else
    let parts := goSplit s '\n'
    let parts := if parts.getLast? = some [] then parts.dropLast else parts
    parts.map fun line =>
      if goHasSuf line (gs "\r") then line.dropLast else line

example : goSplit (gs "a/b/c") '/' = [gs "a", gs "b", gs "c"] := by decide
example : goClean (gs "a/../b/") = gs "b" := by decide
example : goClean (gs "//a/./b") = gs "/a/b" := by decide
example : goJoin [gs "", gs "a"] = gs "a" := by decide
example : goDir (gs "pkg/util/file.go") = gs "pkg/util" := by decide
example : goDir (gs "file.go") = gs "." := by decide
example : goBase (gs "a/util.go") = gs "util.go" := by decide
example : goAtoi (gs "-15") = -15 := by decide
example : goAtoi (gs "1x") = 0 := by decide
example : goScanLines (gs "a\nb\n") = [gs "a", gs "b"] := by decide

/-! ## Diff parser (`diff.go`) -/

/-- `DiffLine` from `diff.go`. -/
structure DiffLine where
  file : GoStr
  lineNum : Int
  changeType : GoStr
deriving DecidableEq, Repr

/-- `GitDiff` from `diff.go` (the `BaseRef` string plus parsed lines). -/
structure GitDiff where
  baseRef : GoStr
  lines : List DiffLine
deriving DecidableEq, Repr

/-- `HunkInfo` from `diff.go`. -/
structure HunkInfo where
  oldStart : Int
  oldCount : Int
  newStart : Int
  newCount : Int
deriving DecidableEq, Repr

/-- `parseHunkHeader` from `diff.go`: require the `@@` marker and at least
three space-separated fields, then read the `-old[,count]` and
`+new[,count]` fields with `Atoi`, errors discarded; a missing count
defaults to 1. -/
def parseHunkHeader (header : GoStr) : Option HunkInfo :=
  if ¬ goHasPre header (gs "@@") then none
  else
    let parts := goSplit header ' '
    if parts.length < 3 then none
    else
      let oldInfo := goTrimPre (parts.getD 1 []) (gs "-")
      let oldParts := goSplit oldInfo ','
      let oldStart := goAtoi (oldParts.getD 0 [])
      let oldCount := if 1 < oldParts.length then goAtoi (oldParts.getD 1 []) else 1
      let newInfo := goTrimPre (parts.getD 2 []) (gs "+")
      let newParts := goSplit newInfo ','
      let newStart := goAtoi (newParts.getD 0 [])
      let newCount := if 1 < newParts.length then goAtoi (newParts.getD 1 []) else 1
      some ⟨oldStart, oldCount, newStart, newCount⟩

/-- The loop of `getAddedLinesFromHunk`: walk the lines after the header
while fewer than `newCount` new-file lines have been processed, stopping at
the next `@@` header; `+` lines emit the current new-file line number and
advance it, `-` lines do nothing, `\` lines do nothing, other lines advance
the counter. -/
def hunkBodyLines (newCount : Int) : List GoStr → Int → Int → List Int
  | [], _, _ => []
  | line :: rest, currentLine, processed =>
    if ¬ (processed < newCount) then []
    else if goHasPre line (gs "@@") then []
    else if goHasPre line (gs "+") ∧ ¬ goHasPre line (gs "+++") then
      currentLine :: hunkBodyLines newCount rest (currentLine + 1) (processed + 1)
    else if goHasPre line (gs "-") ∧ ¬ goHasPre line (gs "---") then
      hunkBodyLines newCount rest currentLine processed
    else if ¬ goHasPre line (gs "\\") then
      hunkBodyLines newCount rest (currentLine + 1) (processed + 1)
    else
      hunkBodyLines newCount rest currentLine processed

/-- `getAddedLinesFromHunk` from `diff.go`: locate the hunk header by
equality, then scan its body starting the new-file counter at
`info.NewStart`. -/
def getAddedLinesFromHunk (allLines : List GoStr) (hunkHeader : GoStr)
    (info : HunkInfo) : List Int :=
  match allLines.findIdx? (· == hunkHeader) with
  | none => []
  | some hunkIdx =>
    hunkBodyLines info.newCount (allLines.drop (hunkIdx + 1)) info.newStart 0

/-- The scanner state of `parseFileDiff`. -/
structure FileDiffState where
  result : List DiffLine
  currentNewLine : Int
  inHunk : Bool
deriving DecidableEq, Repr

/-- One iteration of the `parseFileDiff` scanner loop, mirroring the
branch order of the source: `@@` header first (resetting the new-file
counter), then the `inHunk` guard, then added / deleted / no-newline /
context classification. -/
def parseFileDiffStep (filename : GoStr) (st : FileDiffState) (line : GoStr) :
    FileDiffState :=
  if goHasPre line (gs "@@") then
    match parseHunkHeader line with
    | some info => { st with currentNewLine := info.newStart, inHunk := true }
    | none => st
  else if ¬ st.inHunk then st
  else if goHasPre line (gs "+") ∧ ¬ goHasPre line (gs "+++") then
    { st with
        result := st.result ++ [⟨filename, st.currentNewLine, gs "added"⟩],
        currentNewLine := st.currentNewLine + 1 }
  else if goHasPre line (gs "-") ∧ ¬ goHasPre line (gs "---") then st
  else if ¬ goHasPre line (gs "\\") then
    { st with currentNewLine := st.currentNewLine + 1 }
  else st

/-- `parseFileDiff` from `diff.go`. -/
def parseFileDiff (filename : GoStr) (diffContent : GoStr) : List DiffLine :=
  ((goScanLines diffContent).foldl (parseFileDiffStep filename)
    ⟨[], 0, false⟩).result

/-! ## Coverage profile model (`golang.org/x/tools/cover`, consumed read-only) -/

/-- `cover.ProfileBlock`: a contiguous line/column range with a statement
count and an execution count. -/
structure ProfileBlock where
  startLine : Int
  startCol : Int
  endLine : Int
  endCol : Int
  numStmt : Int
  count : Int
deriving DecidableEq, Repr

/-- `cover.Profile`: a file name and its ordered blocks.  (The `Mode`
string of the Go struct is not read by any function modelled here and is
omitted.) -/
structure Profile where
  fileName : GoStr
  blocks : List ProfileBlock
deriving DecidableEq, Repr

/-! ## Diff coverage calculator (`diff_coverage.go`) -/

/-- `isLineCovered` from `diff_coverage.go`: the first block whose
`[startLine, endLine]` range contains the line decides, by its execution
count being positive; no containing block means uncovered. -/
def isLineCovered (profile : Profile) (lineNum : Int) : Bool :=
  match profile.blocks.find?
      (fun b => decide (b.startLine ≤ lineNum) && decide (lineNum ≤ b.endLine)) with
  | some b => decide (0 < b.count)
  | none => false

/-- The disjunction tested for one profile in the second loop of
`FindMatchingProfile`: profile path ends with the file, or with
`"/" + file`, or the file ends with the profile's base name. -/
def fallbackMatch (file : GoStr) (p : Profile) : Bool :=
  goHasSuf p.fileName file || goHasSuf p.fileName (gs "/" ++ file) ||
    goHasSuf file (goBase p.fileName)

/-- `FindMatchingProfile` from `diff_coverage.go`: a first loop looking for
an exact path match, then a second loop returning the first profile that
passes any of the three fallback checks. -/
def FindMatchingProfile (profiles : List Profile) (file : GoStr) :
    Option Profile :=
  match profiles.find? (fun p => p.fileName == file) with
  | some p => some p
  | none => profiles.find? (fallbackMatch file)

/-- `truncateString` from `diff_coverage.go`.  The Go body slices
`s[:maxLen-3]`; a negative index is a runtime panic, modelled as `none`. -/
def truncateString (s : GoStr) (maxLen : Int) : Option GoStr :=
  if (s.length : Int) ≤ maxLen then some s
  else if maxLen - 3 < 0 then none
  else some (s.take (maxLen - 3).toNat ++ gs "...")

/-- Association-list lookup, modelling Go map indexing. -/
def alookup {β : Type} (k : GoStr) : List (GoStr × β) → Option β
  | [] => none
  | kv :: rest => if kv.1 = k then some kv.2 else alookup k rest

/-- Update the value stored at a key in place, modelling mutation of a Go
map entry. -/
def alAdjust {β : Type} (m : List (GoStr × β)) (k : GoStr) (f : β → β) :
    List (GoStr × β) :=
  m.map fun kv => if kv.1 = k then (kv.1, f kv.2) else kv

/-- The grouping loop of `CalculateDiffCoverage`:
`fileChanges[line.File] = append(fileChanges[line.File], line.LineNum)`.
Keys are kept in first-appearance order. -/
def groupDiffLines (lines : List DiffLine) : List (GoStr × List Int) :=
  lines.foldl
    (fun acc dl =>
      match alookup dl.file acc with
      | some _ => alAdjust acc dl.file (fun ns => ns ++ [dl.lineNum])
      | none => acc ++ [(dl.file, [dl.lineNum])])
    []

/-- `DiffCoverageResult` from `diff_coverage.go`.  The `float64` coverage
percentage is modelled as a rational; no claim concerns float rounding. -/
structure DiffCoverageResult where
  file : GoStr
  totalLines : Int
  coveredLines : Int
  uncoveredLines : List Int
  coverage : ℚ
deriving DecidableEq, Repr

/-- `DiffCoverageSummary` from `diff_coverage.go`. -/
structure DiffCoverageSummary where
  results : List DiffCoverageResult
  totalLines : Int
  coveredLines : Int
  coverage : ℚ
deriving DecidableEq, Repr

/-- The per-file body of the `CalculateDiffCoverage` loop: a file without a
matching profile reports all changed lines uncovered at 0%; otherwise each
changed line is judged by `isLineCovered`, preserving the order of the
changed-line list. -/
def diffFileResult (profiles : List Profile) (file : GoStr)
    (changedLines : List Int) : DiffCoverageResult :=
  match FindMatchingProfile profiles file with
  | none => ⟨file, changedLines.length, 0, changedLines, 0⟩
  | some profile =>
    let coveredCount := (changedLines.filter (fun n => isLineCovered profile n)).length
    let uncovered := changedLines.filter (fun n => ! isLineCovered profile n)
    let coverage : ℚ :=
      if 0 < changedLines.length then
        (coveredCount : ℚ) / (changedLines.length : ℚ) * 100
      else 0
    ⟨file, changedLines.length, coveredCount, uncovered, coverage⟩

/-- `CalculateDiffCoverage` from `diff_coverage.go`.  Go iterates the
`fileChanges` map in unspecified order; the model iterates in
first-appearance order, and every property proved below is per-result or an
order-independent sum.  (The `profileMap` built by the source is dead code:
it is never read.) -/
def CalculateDiffCoverage (profiles : List Profile) (diff : GitDiff) :
    DiffCoverageSummary :=
  let fileChanges := groupDiffLines diff.lines
  let results := fileChanges.map fun fc => diffFileResult profiles fc.1 fc.2
  let totalLines : Int := results.foldl (fun acc r => acc + r.totalLines) 0
  let totalCovered : Int := results.foldl (fun acc r => acc + r.coveredLines) 0
  let coverage : ℚ :=
    if 0 < totalLines then (totalCovered : ℚ) / (totalLines : ℚ) * 100 else 0
  ⟨results, totalLines, totalCovered, coverage⟩

example : parseHunkHeader (gs "@@ -1,3 +1,5 @@") = some ⟨1, 3, 1, 5⟩ := by decide
example : parseHunkHeader (gs "@@ -10 +15 @@") = some ⟨10, 1, 15, 1⟩ := by decide
example : parseHunkHeader (gs "not a hunk header") = none := by decide
example : parseHunkHeader (gs "@@ -x +y @@") = some ⟨0, 1, 0, 1⟩ := by decide
example :
    getAddedLinesFromHunk
      [gs "@@ -1,2 +1,4 @@", gs " line1", gs " line2", gs "+line3", gs "+line4"]
      (gs "@@ -1,2 +1,4 @@") ⟨1, 2, 1, 4⟩ = [3, 4] := by decide
example :
    parseFileDiff (gs "main.go")
      (gs "@@ -1,2 +1,3 @@\n line1\n+x\n line2") =
      [⟨gs "main.go", 2, gs "added"⟩] := by decide
example : truncateString (gs "hello") 2 = none := by decide
example :
    FindMatchingProfile [⟨gs "a/util.go", []⟩, ⟨gs "m/pkg/util.go", []⟩]
      (gs "pkg/util.go") = some ⟨gs "a/util.go", []⟩ := by decide

/-! ## Shell-glob matching (stdlib `filepath.Match`, an external collaborator)

Modelled from the documented behaviour of `path/filepath.Match` on Unix:
`*` matches any run of non-separator characters, `?` one non-separator
character, `[...]` a character class with optional `^` negation and `-`
ranges, `\` escapes the next character; a malformed pattern (dangling
escape or bad class) is an error.  Go reports malformed patterns lazily,
only when the bad chunk is reached while matching; this model checks the
pattern eagerly.  The difference is confined to malformed patterns and is
irrelevant to every property proved below, none of which depends on the
matcher's verdicts.

The recursions are structural over an explicit depth counter so that the
definitions reduce inside the kernel; every recursive call strictly
consumes input, so the counters chosen by the wrappers (`goMatchRanges`,
`goPatternOk`, `goMatchRec`) can never be exhausted. -/

/-- Read one possibly escaped character of a character class (`getEsc`):
fails on an empty rest, a leading `-` or `]`, a dangling escape, or if the
class text ends right after the character. -/
def goMatchGetEsc (cs : GoStr) : Option (Char × GoStr) :=
  match cs with
  | [] => none
  | c :: rest =>
    if c = '-' ∨ c = ']' then none
    else if c = '\\' then
      match rest with
      | [] => none
      | d :: rest2 => if rest2 = [] then none else some (d, rest2)
    else if rest = [] then none
    else some (c, rest)

/-- Parse the ranges of a character class after the opening `[` (and an
optional `^`), up to the closing `]`; at least one range is required. -/
def goMatchRangesF : Nat → GoStr → Nat → Option (List (Char × Char) × GoStr)
  | 0, _, _ => none
  | _ + 1, ']' :: rest, nrange =>
    if 0 < nrange then some ([], rest) else none
  | fuel + 1, cs, nrange =>
    match goMatchGetEsc cs with
    | none => none
    | some (lo, cs1) =>
      match cs1 with
      | '-' :: cs2 =>
        (match goMatchGetEsc cs2 with
         | none => none
         | some (hi, cs3) =>
           (match goMatchRangesF fuel cs3 (nrange + 1) with
            | none => none
            | some (rs, rest) => some ((lo, hi) :: rs, rest)))
      | _ =>
        (match goMatchRangesF fuel cs1 (nrange + 1) with
         | none => none
         | some (rs, rest) => some ((lo, lo) :: rs, rest))

/-- Range parsing at its sufficient depth: every round of `goMatchRangesF`
consumes at least one character of `cs`. -/
def goMatchRanges (cs : GoStr) (nrange : Nat) :
    Option (List (Char × Char) × GoStr) :=
  goMatchRangesF (cs.length + 1) cs nrange

/-- Parse a full character class after the opening `[`: optional negation
then the ranges. -/
def goMatchClass (cs : GoStr) : Option (Bool × List (Char × Char) × GoStr) :=
  match cs with
  | '^' :: rest =>
    (match goMatchRanges rest 0 with
     | none => none
     | some (rs, rest2) => some (true, rs, rest2))
  | _ =>
    (match goMatchRanges cs 0 with
     | none => none
     | some (rs, rest2) => some (false, rs, rest2))

/-- Character-class membership. -/
def goMatchIn (r : Char) (ranges : List (Char × Char)) : Bool :=
  ranges.any fun lh => decide (lh.1 ≤ r) && decide (r ≤ lh.2)

/-- The glob matcher proper, for well-formed patterns. -/
def goMatchRecF : Nat → GoStr → GoStr → Bool
  | 0, _, _ => false
  | _ + 1, [], s => s.isEmpty
  | fuel + 1, '*' :: p1, s =>
    goMatchRecF fuel p1 s ||
      (match s with
       | [] => false
       | c :: s1 => ! decide (c = '/') && goMatchRecF fuel ('*' :: p1) s1)
  | fuel + 1, '\\' :: p1, s =>
    (match p1, s with
     | c :: p2, d :: s1 => decide (c = d) && goMatchRecF fuel p2 s1
     | _, _ => false)
  | fuel + 1, '?' :: p1, s =>
    (match s with
     | [] => false
     | c :: s1 => ! decide (c = '/') && goMatchRecF fuel p1 s1)
  | fuel + 1, '[' :: p1, s =>
    (match goMatchClass p1, s with
     | some (neg, rs, p2), c :: s1 =>
       (goMatchIn c rs != neg) && goMatchRecF fuel p2 s1
     | _, _ => false)
  | fuel + 1, c :: p1, s =>
    (match s with
     | [] => false
     | d :: s1 => decide (c = d) && goMatchRecF fuel p1 s1)

/-- Well-formedness of a glob pattern: no dangling escape, and every
character class parses.  (The class parse consumes at least one character,
so the depth counter below never runs out.) -/
def goPatternOkF : Nat → GoStr → Bool
  | 0, _ => false
  | fuel + 1, p =>
    match p with
    | [] => true
    | '\\' :: p1 =>
      (match p1 with
       | [] => false
       | _ :: p2 => goPatternOkF fuel p2)
    | '[' :: p1 =>
      (match goMatchClass p1 with
       | none => false
       | some (_, _, p2) => goPatternOkF fuel p2)
    | _ :: p1 => goPatternOkF fuel p1

/-- Pattern well-formedness at its sufficient depth. -/
def goPatternOk (p : GoStr) : Bool := goPatternOkF (p.length + 1) p

/-- The matcher at its sufficient depth: every recursive call of
`goMatchRecF` strictly decreases `p.length + s.length`. -/
def goMatchRec (p s : GoStr) : Bool :=
  goMatchRecF (p.length + s.length + 1) p s

/-- `filepath.Match(pattern, name)`: `none` models `ErrBadPattern`. -/
def goMatch (pattern name : GoStr) : Option Bool :=
  if goPatternOk pattern then some (goMatchRec pattern name) else none

/-- `matched, _ := filepath.Match(...)`: the error-discarding call sites. -/
def matchOr (pattern name : GoStr) : Bool := (goMatch pattern name).getD false

example : matchOr (gs "*.go") (gs "file.go") = true := by decide
example : matchOr (gs "*.go") (gs "a/file.go") = false := by decide
example : matchOr (gs "[a-c]x") (gs "bx") = true := by decide
example : matchOr (gs "[^a-c]x") (gs "bx") = false := by decide
example : goMatch (gs "[") (gs "a") = none := by decide
example : goMatch (gs "a[") (gs "zzz") = none := by decide

/-! ## Directory aggregator (`analyzer.go` and the concurrent variant) -/

/-- The body of the `ShouldIgnoreDirectory` loop for one pattern, with the
source's control flow: an empty pattern is skipped; a `Match` error skips
the remaining checks for this pattern; a direct match wins; for patterns
containing `/`, a (repeated) full-path match or a substring test against
the star-trimmed pattern wins; finally each path component and each
prefix-join of components is matched. -/
def ignoreOnePattern (dir pattern : GoStr) : Bool :=
  if pattern = [] then false
  else
    match goMatch pattern dir with
    | none => false
    | some true => true
    | some false =>
      let parts := goSplit dir '/'
      (pattern.contains '/' &&
        (matchOr pattern dir || goContainsSub dir (goTrimStars pattern))) ||
      ((List.range parts.length).any fun i =>
        matchOr pattern (parts.getD i []) ||
        matchOr pattern (goJoin (parts.take (i + 1))))

/-- `ShouldIgnoreDirectory` from `analyzer.go`. -/
def ShouldIgnoreDirectory (dir : GoStr) (patterns : List GoStr) : Bool :=
  patterns.any (ignoreOnePattern dir)

/-- `CoverageAnalyzer` from `analyzer.go`. -/
structure CoverageAnalyzer where
  level : Int
  ignorePatterns : List GoStr
deriving DecidableEq, Repr

/-- `DirCoverage` from `analyzer.go`. -/
structure DirCoverage where
  dir : GoStr
  stmtCount : Int
  stmtCovered : Int
deriving DecidableEq, Repr

/-- The aggregation maps `map[string]*DirCoverage`, as association lists in
insertion order; Go map equality is expressed by `covMapEqv` below. -/
abbrev CovMap := List (GoStr × DirCoverage)

/-- `adjustDirectoryLevel` from `analyzer.go`. -/
def adjustDirectoryLevel (a : CoverageAnalyzer) (dir : GoStr) : GoStr :=
  if 0 < a.level then
    let parts := goSplit dir '/'
    if a.level < (parts.length : Int) then goJoin (parts.take a.level.toNat)
    else dir
  else if a.level = -1 then gs "."
  else dir

/-- One block of the inner loop of `Aggregate`: add the statement count to
the total, and also to the covered total when the execution count is
positive. -/
def addBlock (c : DirCoverage) (b : ProfileBlock) : DirCoverage :=
  { c with
      stmtCount := c.stmtCount + b.numStmt,
      stmtCovered :=
        if 0 < b.count then c.stmtCovered + b.numStmt else c.stmtCovered }

/-- The body of the `Aggregate` loop for one (non-nil) profile: derive the
directory, test the ignore patterns, adjust the level, create the entry on
first touch, then add every block. -/
def aggStep (a : CoverageAnalyzer) (m : CovMap) (p : Profile) : CovMap :=
  let dir := goDir p.fileName
  if ShouldIgnoreDirectory dir a.ignorePatterns then m
  else
    let key := adjustDirectoryLevel a dir
    let m2 :=
      match alookup key m with
      | some _ => m
      | none => m ++ [(key, ⟨key, 0, 0⟩)]
    p.blocks.foldl (fun acc b => alAdjust acc key (fun c => addBlock c b)) m2

/-- `Aggregate` from `analyzer.go`.  The input list carries `Option`
entries because the Go slice holds pointers; the loop dereferences
`profile.FileName` unconditionally, so a nil entry is a panic, modelled as
`none`. -/
def Aggregate (a : CoverageAnalyzer) (profiles : List (Option Profile)) :
    Option CovMap :=
  profiles.foldlM
    (fun m op =>
      match op with
      | none => none
      | some p => some (aggStep a m p))
    []

/-- `processProfile` from the concurrent aggregator: the same per-profile
body as `Aggregate`, applied to a fresh empty map. -/
def processProfile (a : CoverageAnalyzer) (p : Profile) : CovMap :=
  let dir := goDir p.fileName
  if ShouldIgnoreDirectory dir a.ignorePatterns then []
  else
    let key := adjustDirectoryLevel a dir
    let m2 : CovMap := [(key, ⟨key, 0, 0⟩)]
    p.blocks.foldl (fun acc b => alAdjust acc key (fun c => addBlock c b)) m2

/-- The merge loop of `AggregateConcurrent`: fold one worker's partial map
into the accumulated result, summing counts per key and inserting a copy
on first sight. -/
def mergeMaps (acc : CovMap) (part : CovMap) : CovMap :=
  part.foldl
    (fun acc kv =>
      match alookup kv.1 acc with
      | some _ =>
        alAdjust acc kv.1 fun e =>
          { e with
              stmtCount := e.stmtCount + kv.2.stmtCount,
              stmtCovered := e.stmtCovered + kv.2.stmtCovered }
      | none => acc ++ [(kv.1, ⟨kv.2.dir, kv.2.stmtCount, kv.2.stmtCovered⟩)])
    acc

/-- `AggregateConcurrent` from the concurrent aggregator: at most 10
profiles delegate to `Aggregate`; otherwise workers skip nil profiles,
compute `processProfile` each, and a collector merges the partial maps.
The workers' completion order is scheduler-dependent; the model merges in
input order, and `mergeMaps_fold_perm` below proves that every merge order
produces the same map, which is what makes the deterministic model
faithful. -/
def AggregateConcurrent (a : CoverageAnalyzer)
    (profiles : List (Option Profile)) : Option CovMap :=
  if profiles.length ≤ 10 then Aggregate a profiles
  else
    some ((profiles.filterMap id).foldl
      (fun acc p => mergeMaps acc (processProfile a p)) [])

/-- Go map equality (`reflect.DeepEqual` on `map[string]*DirCoverage`):
the same keys with the same values, irrespective of insertion order. -/
def covMapEqv (m1 m2 : CovMap) : Bool :=
  m1.all (fun kv => decide (alookup kv.1 m2 = some kv.2)) &&
  m2.all (fun kv => decide (alookup kv.1 m1 = some kv.2))

/-- `covMapEqv` lifted to runs that may panic: two panics agree, a panic
and a map never do. -/
def optCovMapEqv : Option CovMap → Option CovMap → Bool
  | none, none => true
  | some m1, some m2 => covMapEqv m1 m2
  | _, _ => false

/-- The §8 invariant `0 ≤ covered ≤ total`, as an executable check over a
result map. -/
def covBoundsOk (m : CovMap) : Bool :=
  m.all fun kv =>
    decide (0 ≤ kv.2.stmtCovered) && decide (kv.2.stmtCovered ≤ kv.2.stmtCount)

/-- Every block of every (non-nil) profile has a non-negative statement
count — true of every profile a coverage parser can produce, and the
reading under which the spec calls the sums non-negative. -/
def blocksNonNeg (profiles : List (Option Profile)) : Bool :=
  profiles.all fun op =>
    op.all fun p => p.blocks.all fun b => decide (0 ≤ b.numStmt)

/-- The claim's reading of "the first N slash-separated components", taken
verbatim from the spec wording: the first `n` fields of the slash-split
path, joined back with slashes.  Stated only to compare against
`adjustDirectoryLevel`, which instead passes the fields through
`filepath.Join`. -/
def specFirstNComponents (dir : GoStr) (n : Nat) : GoStr :=
  goJoinSep ((goSplit dir '/').take n) '/'

example :
    Aggregate ⟨0, []⟩ [some ⟨gs "pkg/util/a.go", [⟨1, 1, 9, 1, 7, 1⟩]⟩] =
      some [(gs "pkg/util", ⟨gs "pkg/util", 7, 7⟩)] := by decide
example : Aggregate ⟨0, []⟩ [some ⟨gs "pkg/a.go", []⟩, none] = none := by decide
example : adjustDirectoryLevel ⟨2, []⟩ (gs "/a/b/c") = gs "a" := by decide
example : specFirstNComponents (gs "/a/b/c") 2 = gs "/a" := by decide
example :
    ShouldIgnoreDirectory (gs "a/internal/b") [gs "internal"] = true := by decide

/-- Ascending (weakly) sorted list of line numbers, decidably. -/
def ascSortedB (l : List Int) : Bool := decide (List.Sorted (· ≤ ·) l)

/-! ## Theorems -/

/-- A one-character wanted head determines the head of the string. -/
theorem goHasPre_one_dst {line : GoStr} {c : Char}
    (h : goHasPre line [c] = true) : ∃ t, line = c :: t := by
  cases line with
  | nil => simp [goHasPre, List.isPrefixOf] at h
  | cons d t =>
    refine ⟨t, ?_⟩
    simp [goHasPre, List.isPrefixOf_cons₂] at h
    simp [h]

/-- A string starting with `c` does not start with `d ≠ c`. -/
theorem goHasPre_one_ne {c d : Char} (hne : d ≠ c) (t : GoStr) :
    goHasPre (c :: t) [d] = false := by
  simp [goHasPre, List.isPrefixOf_cons₂, hne]

/-- C5 (counterexample): `"@@ -x +y @@"` does not match the hunk-header
grammar, yet `parseHunkHeader` returns a match (with the unparseable
numbers read as 0), contradicting the claim that every non-grammar line
yields no match. -/
theorem parseHunkHeader_accepts_malformed :
    parseHunkHeader (gs "@@ -x +y @@") = some ⟨0, 1, 0, 1⟩ ∧
    parseHunkHeader (gs "@@ -x +y @@") ≠ none := by
  constructor
  · decide
  · decide

/-- C5 (amended): the two grammar examples parse exactly as claimed, and a
missing count defaults to 1; but `parseHunkHeader` returns no match exactly
when the line does not start with `@@` or has fewer than three
space-separated fields — any other line is accepted, with unparseable
numbers read as 0. -/
theorem parseHunkHeader_spec :
    parseHunkHeader (gs "@@ -1,3 +1,5 @@") = some ⟨1, 3, 1, 5⟩ ∧
    parseHunkHeader (gs "@@ -10 +15 @@") = some ⟨10, 1, 15, 1⟩ ∧
    ∀ header : GoStr,
      parseHunkHeader header = none ↔
        (goHasPre header (gs "@@") = false ∨ (goSplit header ' ').length < 3) := by
  refine ⟨by decide, by decide, fun header => ?_⟩
  by_cases h1 : goHasPre header (gs "@@")
  · by_cases h2 : (goSplit header ' ').length < 3
    · simp [parseHunkHeader, h1, h2]
    · simp [parseHunkHeader, h1, h2]
  · simp [parseHunkHeader, h1]

/-- C8 (counterexample): for width 2 and the 5-character string "hello" the
claim demands the result "...", but the Go body slices the string at the
negative index -1, a runtime panic (modelled as `none`). -/
theorem truncateString_small_width_counterexample :
    truncateString (gs "hello") 2 = none ∧
    (none : Option GoStr) ≠ some (gs "...") := ⟨by decide, by decide⟩

/-- C8 (amended): strings no longer than the width are returned unchanged;
longer strings are truncated to the first width-3 characters plus "..."
whenever the width is at least 3 (so width exactly 3 degenerates to
"..."); but for widths strictly below 3 a longer string drives the slice
index negative and the function panics instead of returning "...".  The
two concrete examples of the claim hold. -/
theorem truncateString_spec :
    (∀ (s : GoStr) (w : Int), (s.length : Int) ≤ w →
      truncateString s w = some s) ∧
    (∀ (s : GoStr) (w : Int), 3 ≤ w → w < (s.length : Int) →
      truncateString s w = some (s.take (w - 3).toNat ++ gs "...")) ∧
    (∀ (s : GoStr) (w : Int), w < 3 → w < (s.length : Int) →
      truncateString s w = none) ∧
    truncateString (gs "this is a very long string") 10 =
      some (gs "this is...") ∧
    truncateString (gs "hello") 3 = some (gs "...") := by
  refine ⟨fun s w h => ?_, fun s w h3 hlen => ?_, fun s w h3 hlen => ?_,
    by decide, by decide⟩
  · simp [truncateString, h]
  · have h1 : ¬ ((s.length : Int) ≤ w) := by omega
    have h2 : ¬ (w - 3 < 0) := by omega
    simp [truncateString, h1, h2]
  · have h1 : ¬ ((s.length : Int) ≤ w) := by omega
    have h2 : w - 3 < 0 := by omega
    simp [truncateString, h1, h2]

/-- C8 (witness): the three branches of `truncateString_spec` at concrete
inputs. -/
theorem truncateString_spec_witness :
    truncateString (gs "hi") 5 = some (gs "hi") ∧
    truncateString (gs "abcdef") 5 = some (gs "ab...") ∧
    truncateString (gs "hello") 1 = none := by
  refine ⟨?_, ?_, ?_⟩
  · exact truncateString_spec.1 (gs "hi") 5 (by decide)
  · exact (truncateString_spec.2.1 (gs "abcdef") 5 (by decide)
      (by decide)).trans (by decide)
  · exact truncateString_spec.2.2.1 (gs "hello") 1 (by decide) (by decide)

/-- C10: the covered/uncovered verdict for a line is decided by the first
block in the profile's block sequence whose `[startLine, endLine]` range
contains it, by that block's execution count being positive — so a first
containing block with count 0 reports the line uncovered regardless of any
later containing block. -/
theorem isLineCovered_first_block :
    ∀ (profile : Profile) (lineNum : Int) (pre : List ProfileBlock)
      (b : ProfileBlock) (post : List ProfileBlock),
      profile.blocks = pre ++ b :: post →
      (∀ b2 ∈ pre, ¬ (b2.startLine ≤ lineNum ∧ lineNum ≤ b2.endLine)) →
      b.startLine ≤ lineNum → lineNum ≤ b.endLine →
      isLineCovered profile lineNum = decide (0 < b.count) := by
  intro profile lineNum pre b post hblocks hpre hs he
  have hfind : (pre ++ b :: post).find?
      (fun b2 => decide (b2.startLine ≤ lineNum) &&
        decide (lineNum ≤ b2.endLine)) = some b := by
    apply List.find?_eq_some.mpr
    refine ⟨by simp [hs, he], pre, post, rfl, ?_⟩
    intro b2 hb2
    have hnot := hpre b2 hb2
    simp only [Bool.not_eq_eq_eq_not, Bool.not_true, Bool.and_eq_false_imp,
      decide_eq_true_eq, decide_eq_false_iff_not]
    intro hs2
    intro hle
    exact hnot ⟨hs2, hle⟩
  unfold isLineCovered
  rw [hblocks, hfind]

/-- C10 (witness): a profile whose first block covering line 3 has
execution count 0 while a later block covering line 3 has count 7 still
reports line 3 uncovered. -/
theorem isLineCovered_first_block_witness :
    isLineCovered ⟨gs "f.go", [⟨1, 1, 5, 1, 2, 0⟩, ⟨1, 1, 5, 1, 2, 7⟩]⟩ 3 =
      false := by
  have h := isLineCovered_first_block
    ⟨gs "f.go", [⟨1, 1, 5, 1, 2, 0⟩, ⟨1, 1, 5, 1, 2, 7⟩]⟩ 3 []
    ⟨1, 1, 5, 1, 2, 0⟩ [⟨1, 1, 5, 1, 2, 7⟩] rfl (by simp) (by decide) (by decide)
  exact h.trans (by decide)

/-- C4: within a hunk body, the new-file counter starts at the header's
declared new-start; a `+` line (but not `+++`) emits an added `DiffLine`
carrying the current counter and increments it; a `-` line (but not `---`)
changes nothing; a `\` line is ignored; any other line increments the
counter without emitting.  The claim's concrete hunk yields added lines
[3, 4] under both hunk-parsing entry points. -/
theorem parseFileDiff_hunk_body_spec :
    (∀ (filename : GoStr) (st : FileDiffState) (line : GoStr)
        (info : HunkInfo),
      parseHunkHeader line = some info →
      parseFileDiffStep filename st line =
        { st with currentNewLine := info.newStart, inHunk := true }) ∧
    (∀ (filename : GoStr) (st : FileDiffState) (line : GoStr),
      st.inHunk = true → goHasPre line (gs "@@") = false →
      goHasPre line (gs "+") = true → goHasPre line (gs "+++") = false →
      parseFileDiffStep filename st line =
        { st with
            result := st.result ++ [⟨filename, st.currentNewLine, gs "added"⟩],
            currentNewLine := st.currentNewLine + 1 }) ∧
    (∀ (filename : GoStr) (st : FileDiffState) (line : GoStr),
      st.inHunk = true → goHasPre line (gs "@@") = false →
      goHasPre line (gs "-") = true → goHasPre line (gs "---") = false →
      parseFileDiffStep filename st line = st) ∧
    (∀ (filename : GoStr) (st : FileDiffState) (line : GoStr),
      st.inHunk = true → goHasPre line (gs "@@") = false →
      goHasPre line (gs "\\") = true →
      parseFileDiffStep filename st line = st) ∧
    (∀ (filename : GoStr) (st : FileDiffState) (line : GoStr),
      st.inHunk = true → goHasPre line (gs "@@") = false →
      (goHasPre line (gs "+") = false ∨ goHasPre line (gs "+++") = true) →
      (goHasPre line (gs "-") = false ∨ goHasPre line (gs "---") = true) →
      goHasPre line (gs "\\") = false →
      parseFileDiffStep filename st line =
        { st with currentNewLine := st.currentNewLine + 1 }) ∧
    getAddedLinesFromHunk
      [gs "@@ -1,2 +1,4 @@", gs " line1", gs " line2", gs "+line3",
        gs "+line4"]
      (gs "@@ -1,2 +1,4 @@") ⟨1, 2, 1, 4⟩ = [3, 4] ∧
    parseFileDiff (gs "f.go")
      (gs "@@ -1,2 +1,4 @@\n line1\n line2\n+line3\n+line4") =
      [⟨gs "f.go", 3, gs "added"⟩, ⟨gs "f.go", 4, gs "added"⟩] := by
  refine ⟨?_, ?_, ?_, ?_, ?_, by decide, by decide⟩
  · intro filename st line info hinfo
    have hat : goHasPre line (gs "@@") = true := by
      by_contra hno
      simp only [Bool.not_eq_true] at hno
      simp [parseHunkHeader, hno] at hinfo
    simp [parseFileDiffStep, hat, hinfo]
  · intro filename st line hin hat hplus hppp
    simp [parseFileDiffStep, hat, hin, hplus, hppp]
  · intro filename st line hin hat hminus hmmm
    obtain ⟨t, rfl⟩ := goHasPre_one_dst (c := '-') hminus
    have hplus : goHasPre ('-' :: t) (gs "+") = false :=
      goHasPre_one_ne (by decide) t
    simp [parseFileDiffStep, hat, hin, hplus, hminus, hmmm]
  · intro filename st line hin hat hback
    obtain ⟨t, rfl⟩ := goHasPre_one_dst (c := '\\') hback
    have hplus : goHasPre ('\\' :: t) (gs "+") = false :=
      goHasPre_one_ne (by decide) t
    have hminus : goHasPre ('\\' :: t) (gs "-") = false :=
      goHasPre_one_ne (by decide) t
    simp [parseFileDiffStep, hat, hin, hplus, hminus, hback]
  · intro filename st line hin hat hplus hminus hback
    rcases hplus with hplus | hppp
    · rcases hminus with hminus | hmmm
      · simp [parseFileDiffStep, hat, hin, hplus, hminus, hback]
      · simp [parseFileDiffStep, hat, hin, hplus, hmmm, hback]
    · rcases hminus with hminus | hmmm
      · simp [parseFileDiffStep, hat, hin, hppp, hminus, hback]
      · simp [parseFileDiffStep, hat, hin, hppp, hmmm, hback]

/-- C4 (witness): the added-line rule of `parseFileDiff_hunk_body_spec` at
a concrete state: inside a hunk with counter 5, the line "+x" emits an
added line 5 and moves the counter to 6. -/
theorem parseFileDiff_hunk_body_witness :
    parseFileDiffStep (gs "f.go") ⟨[], 5, true⟩ (gs "+x") =
      ⟨[⟨gs "f.go", 5, gs "added"⟩], 6, true⟩ := by
  have h := parseFileDiff_hunk_body_spec.2.1 (gs "f.go") ⟨[], 5, true⟩
    (gs "+x") rfl (by decide) (by decide) (by decide)
  exact h.trans (by decide)

/-- C6 (counterexample): for the file "pkg/util.go", the profile
"m/pkg/util.go" matches under the suffix-with-separator strategy, while
"a/util.go" matches only under the base-name strategy (and neither is an
exact match) — yet `FindMatchingProfile` returns "a/util.go" because it
scans profile by profile, not strategy by strategy. -/
theorem findMatchingProfile_strategy_order_counterexample :
    FindMatchingProfile [⟨gs "a/util.go", []⟩, ⟨gs "m/pkg/util.go", []⟩]
      (gs "pkg/util.go") = some ⟨gs "a/util.go", []⟩ ∧
    goHasSuf (gs "m/pkg/util.go") (gs "/" ++ gs "pkg/util.go") = true ∧
    goHasSuf (gs "a/util.go") (gs "pkg/util.go") = false ∧
    goHasSuf (gs "a/util.go") (gs "/" ++ gs "pkg/util.go") = false ∧
    gs "a/util.go" ≠ gs "pkg/util.go" ∧
    goHasSuf (gs "pkg/util.go") (goBase (gs "a/util.go")) = true := by decide

/-- C6 (amended): an exact path match always takes priority over every
fallback strategy; when no exact match exists the returned profile passes
one of the three fallback checks, and the scan is profile-major
first-match-wins: the first profile in list order passing any fallback
check is returned, and no profile is returned when none matches. -/
theorem findMatchingProfile_spec :
    (∀ (profiles : List Profile) (file : GoStr) (q : Profile),
      FindMatchingProfile profiles file = some q →
      (∃ p ∈ profiles, p.fileName = file) → q.fileName = file) ∧
    (∀ (profiles : List Profile) (file : GoStr) (q : Profile),
      (∀ p ∈ profiles, p.fileName ≠ file) →
      FindMatchingProfile profiles file = some q →
      fallbackMatch file q = true) ∧
    (∀ (profiles : List Profile) (file : GoStr) (q : Profile)
        (pre post : List Profile),
      (∀ p ∈ profiles, p.fileName ≠ file) →
      profiles = pre ++ q :: post →
      fallbackMatch file q = true →
      (∀ p ∈ pre, fallbackMatch file p = false) →
      FindMatchingProfile profiles file = some q) ∧
    (∀ (profiles : List Profile) (file : GoStr),
      FindMatchingProfile profiles file = none ↔
        ∀ p ∈ profiles, p.fileName ≠ file ∧ fallbackMatch file p = false) := by
  have hexact : ∀ (profiles : List Profile) (file : GoStr),
      (∀ p ∈ profiles, p.fileName ≠ file) →
      profiles.find? (fun p => p.fileName == file) = none := by
    intro profiles file hne
    apply List.find?_eq_none.mpr
    intro p hp
    simp only [beq_iff_eq]
    exact hne p hp
  refine ⟨?_, ?_, ?_, ?_⟩
  · intro profiles file q hfmp hex
    unfold FindMatchingProfile at hfmp
    cases h1 : profiles.find? (fun p => p.fileName == file) with
    | some p =>
      rw [h1] at hfmp
      have hpq : p = q := by simpa using hfmp
      have := List.find?_some h1
      simp only [beq_iff_eq] at this
      rw [← hpq]; exact this
    | none =>
      exfalso
      obtain ⟨p, hp, hpf⟩ := hex
      have := List.find?_eq_none.mp h1 p hp
      simp only [beq_iff_eq] at this
      exact this hpf
  · intro profiles file q hne hfmp
    unfold FindMatchingProfile at hfmp
    rw [hexact profiles file hne] at hfmp
    exact List.find?_some hfmp
  · intro profiles file q pre post hne hsplit hq hpre
    unfold FindMatchingProfile
    rw [hexact profiles file hne]
    apply List.find?_eq_some.mpr
    exact ⟨hq, pre, post, hsplit, fun p hp => by simp [hpre p hp]⟩
  · intro profiles file
    unfold FindMatchingProfile
    cases h1 : profiles.find? (fun p => p.fileName == file) with
    | some p =>
      simp only [reduceCtorEq, false_iff]
      intro hall
      have hmem := List.mem_of_find?_eq_some h1
      have := List.find?_some h1
      simp only [beq_iff_eq] at this
      exact (hall p hmem).1 this
    | none =>
      have h1all := List.find?_eq_none.mp h1
      simp only [beq_iff_eq] at h1all
      constructor
      · intro h2 p hp
        exact ⟨h1all p hp,
          Bool.not_eq_true _ ▸ List.find?_eq_none.mp h2 p hp⟩
      · intro hall
        exact List.find?_eq_none.mpr fun p hp => by simp [(hall p hp).2]

/-- C6 (witness): the profile-major first-match rule of
`findMatchingProfile_spec` at a concrete input: with no exact match, the
non-matching profile "zz/other.go" is passed over and the
suffix-matching "m/pkg/util.go" is returned. -/
theorem findMatchingProfile_spec_witness :
    FindMatchingProfile [⟨gs "zz/other.go", []⟩, ⟨gs "m/pkg/util.go", []⟩]
      (gs "pkg/util.go") = some ⟨gs "m/pkg/util.go", []⟩ :=
  findMatchingProfile_spec.2.2.1
    [⟨gs "zz/other.go", []⟩, ⟨gs "m/pkg/util.go", []⟩] (gs "pkg/util.go")
    ⟨gs "m/pkg/util.go", []⟩ [⟨gs "zz/other.go", []⟩] []
    (by decide) rfl (by decide) (by decide)

/-- C7 (counterexample): a diff whose per-file changed lines arrive out of
order produces an unsorted uncovered-lines list — `CalculateDiffCoverage`
never sorts. -/
theorem calculateDiffCoverage_unsorted_counterexample :
    (CalculateDiffCoverage []
        ⟨gs "HEAD",
          [⟨gs "f.go", 5, gs "added"⟩, ⟨gs "f.go", 3, gs "added"⟩]⟩).results =
      [⟨gs "f.go", 2, 0, [5, 3], 0⟩] ∧
    ascSortedB [5, 3] = false := by
  constructor
  · decide
  · decide

/-- C7 (amended): each result's uncovered-lines list preserves the order in
which that file's changed lines appear in the diff (it is the sublist of
changed lines failing the coverage test); in particular it is sorted in
ascending order whenever the diff's per-file changed lines are ascending.
The code itself never sorts, so the claim's universal sortedness holds
only under that ordering assumption on the diff. -/
theorem calculateDiffCoverage_uncovered_order :
    ∀ (profiles : List Profile) (diff : GitDiff),
      ((groupDiffLines diff.lines).all fun fc => ascSortedB fc.2) = true →
      ((CalculateDiffCoverage profiles diff).results.all fun r =>
        ascSortedB r.uncoveredLines) = true := by
  intro profiles diff hg
  have hg2 : ∀ fc ∈ groupDiffLines diff.lines, List.Sorted (· ≤ ·) fc.2 := by
    intro fc hfc
    have h := List.all_eq_true.mp hg fc hfc
    simpa [ascSortedB] using h
  apply List.all_eq_true.mpr
  intro r hr
  simp only [CalculateDiffCoverage, List.mem_map] at hr
  obtain ⟨fc, hfc, rfl⟩ := hr
  have hsorted := hg2 fc hfc
  unfold diffFileResult
  cases h : FindMatchingProfile profiles fc.1 with
  | none => simpa [ascSortedB] using hsorted
  | some profile =>
    simp only [ascSortedB, decide_eq_true_eq]
    exact List.Pairwise.filter _ hsorted

/-- C7 (witness): a profile covering line 2 but not line 9, a diff adding
lines 2 and 9 in ascending order: the uncovered list of every result is
sorted. -/
theorem calculateDiffCoverage_uncovered_order_witness :
    ((CalculateDiffCoverage [⟨gs "f.go", [⟨1, 1, 3, 1, 1, 1⟩]⟩]
        ⟨gs "HEAD",
          [⟨gs "f.go", 2, gs "added"⟩, ⟨gs "f.go", 9, gs "added"⟩]⟩).results.all
      fun r => ascSortedB r.uncoveredLines) = true :=
  calculateDiffCoverage_uncovered_order _ _ (by decide)

/-- No piece produced by `splitOnP` contains an element satisfying the
predicate. -/
theorem splitOnP_parts_false {α : Type} {p : α → Bool} :
    ∀ (l : List α) (part : List α), part ∈ l.splitOnP p →
      ∀ x ∈ part, p x = false := by
  intro l
  induction l with
  | nil =>
    intro part hpart x hx
    rw [List.splitOnP_nil] at hpart
    simp only [List.mem_singleton] at hpart
    subst hpart
    simp at hx
  | cons a as ih =>
    intro part hpart x hx
    rw [List.splitOnP_cons] at hpart
    by_cases hpa : p a
    · rw [if_pos hpa] at hpart
      rcases List.mem_cons.mp hpart with h | h
      · subst h; simp at hx
      · exact ih part h x hx
    · rw [if_neg hpa] at hpart
      cases hsplit : as.splitOnP p with
      | nil => exact absurd hsplit (List.splitOnP_ne_nil _ as)
      | cons hd tl =>
        rw [hsplit, List.modifyHead_cons] at hpart
        rcases List.mem_cons.mp hpart with h | h
        · subst h
          rcases List.mem_cons.mp hx with rfl | hx2
          · exact Bool.not_eq_true _ ▸ hpa
          · exact ih hd (hsplit ▸ List.mem_cons_self hd tl) x hx2
        · exact ih part (hsplit ▸ List.mem_cons_of_mem hd h) x hx

/-- The separator never occurs inside a field of `goSplit`. -/
theorem goSplit_no_sep {c : Char} {l part : GoStr}
    (hpart : part ∈ goSplit l c) : c ∉ part := by
  intro hc
  have h := splitOnP_parts_false l part hpart c hc
  simp at h

/-- Unfolding `goJoinSep` over two or more fields. -/
theorem goJoinSep_cons_cons (p q : GoStr) (rest : List GoStr) (sep : Char) :
    goJoinSep (p :: q :: rest) sep = p ++ sep :: goJoinSep (q :: rest) sep := by
  simp [goJoinSep, List.intercalate, List.intersperse_cons_cons]

/-- The cleaning stack leaves a list of plain components (non-empty, not
`.`, not `..`) untouched. -/
theorem goCleanStack_plain (rooted : Bool) :
    ∀ (ps : List GoStr) (stack : List GoStr),
      (∀ p ∈ ps, p ≠ [] ∧ p ≠ gs "." ∧ p ≠ gs "..") →
      goCleanStack rooted stack ps = stack.reverse ++ ps := by
  intro ps
  induction ps with
  | nil => intro stack _; simp [goCleanStack]
  | cons e rest ih =>
    intro stack hgood
    obtain ⟨he1, he2, he3⟩ := hgood e (List.mem_cons_self e rest)
    have h1 : ¬ (e = [] ∨ e = gs ".") := by
      rintro (h | h)
      · exact he1 h
      · exact he2 h
    simp only [goCleanStack]
    rw [if_neg h1, if_neg he3,
      ih (e :: stack) fun p hp => hgood p (List.mem_cons_of_mem e hp)]
    simp

/-- `path.Clean` is the identity on a non-empty slash-join of plain
relative components. -/
theorem goClean_plain_parts :
    ∀ (ps : List GoStr), ps ≠ [] →
      (∀ p ∈ ps, p ≠ [] ∧ p ≠ gs "." ∧ p ≠ gs ".." ∧ '/' ∉ p) →
      goClean (goJoinSep ps '/') = goJoinSep ps '/' := by
  intro ps hne hgood
  obtain ⟨p, tail, rfl⟩ : ∃ p tail, ps = p :: tail := by
    cases ps with
    | nil => exact absurd rfl hne
    | cons p tail => exact ⟨p, tail, rfl⟩
  obtain ⟨hp1, _, _, hp4⟩ := hgood p (List.mem_cons_self p tail)
  obtain ⟨c, p1, rfl⟩ : ∃ c p1, p = c :: p1 := by
    cases p with
    | nil => exact absurd rfl hp1
    | cons c p1 => exact ⟨c, p1, rfl⟩
  have hchead : ∃ t, goJoinSep ((c :: p1) :: tail) '/' = c :: t := by
    cases tail with
    | nil => exact ⟨p1, by simp [goJoinSep, List.intercalate]⟩
    | cons q rest =>
      exact ⟨p1 ++ '/' :: goJoinSep (q :: rest) '/',
        by rw [goJoinSep_cons_cons]; simp⟩
  obtain ⟨t, ht⟩ := hchead
  have hcslash : c ≠ '/' := fun h => hp4 (h ▸ List.mem_cons_self c p1)
  have hrooted : goHasPre (goJoinSep ((c :: p1) :: tail) '/') (gs "/") = false := by
    rw [ht]
    exact goHasPre_one_ne (fun h => hcslash h.symm) t
  have hsplitBack : goSplit (goJoinSep ((c :: p1) :: tail) '/') '/' =
      (c :: p1) :: tail := by
    apply List.splitOn_intercalate
    · intro l hl
      exact fun h => (hgood l hl).2.2.2 h
    · exact List.noConfusion
  have hne2 : goJoinSep ((c :: p1) :: tail) '/' ≠ [] := by
    rw [ht]; exact List.noConfusion
  rw [goClean, if_neg hne2]
  simp only [hrooted, hsplitBack, Bool.false_eq_true, if_false]
  rw [goCleanStack_plain false ((c :: p1) :: tail) []
    fun q hq => ⟨(hgood q hq).1, (hgood q hq).2.1, (hgood q hq).2.2.1⟩]
  simp only [List.reverse_nil, List.nil_append]
  rw [if_neg hne2]

/-- `filepath.Join` on plain relative components is the slash-join. -/
theorem goJoin_plain_parts :
    ∀ (ps : List GoStr), ps ≠ [] →
      (∀ p ∈ ps, p ≠ [] ∧ p ≠ gs "." ∧ p ≠ gs ".." ∧ '/' ∉ p) →
      goJoin ps = goJoinSep ps '/' := by
  intro ps hne hgood
  obtain ⟨p, tail, rfl⟩ : ∃ p tail, ps = p :: tail := by
    cases ps with
    | nil => exact absurd rfl hne
    | cons p tail => exact ⟨p, tail, rfl⟩
  have hp1 := (hgood p (List.mem_cons_self p tail)).1
  have hdrop : (p :: tail).dropWhile (fun q => decide (q = [])) = p :: tail :=
    List.dropWhile_cons_of_neg (by simpa using hp1)
  rw [goJoin]
  rw [hdrop]
  exact goClean_plain_parts (p :: tail) List.noConfusion hgood

/-- C3 (counterexample): at level 2 the directory "/a/b/c" is mapped to
"a" — `filepath.Join` drops the empty component before the leading slash
and cleans — not to "/a", the first two slash-separated components. -/
theorem adjustDirectoryLevel_counterexample :
    adjustDirectoryLevel ⟨2, []⟩ (gs "/a/b/c") = gs "a" ∧
    specFirstNComponents (gs "/a/b/c") 2 = gs "/a" ∧
    gs "a" ≠ gs "/a" := by decide

/-- C3 (amended): level 0 and level -1 behave exactly as claimed, as does
level N > 0 on a path of at most N components; on a deeper path the result
is `filepath.Join` of the first N slash-separated components — which drops
empty components and lexically cleans, so it equals the components joined
by slashes exactly when those components are plain (non-empty, not `.`,
not `..`), and differs e.g. on absolute paths. -/
theorem adjustDirectoryLevel_spec :
    (∀ (pats : List GoStr) (dir : GoStr),
      adjustDirectoryLevel ⟨0, pats⟩ dir = dir) ∧
    (∀ (pats : List GoStr) (dir : GoStr),
      adjustDirectoryLevel ⟨-1, pats⟩ dir = gs ".") ∧
    (∀ (a : CoverageAnalyzer) (dir : GoStr), 0 < a.level →
      ((goSplit dir '/').length : Int) ≤ a.level →
      adjustDirectoryLevel a dir = dir) ∧
    (∀ (a : CoverageAnalyzer) (dir : GoStr), 0 < a.level →
      a.level < ((goSplit dir '/').length : Int) →
      adjustDirectoryLevel a dir =
        goJoin ((goSplit dir '/').take a.level.toNat)) ∧
    (∀ (a : CoverageAnalyzer) (dir : GoStr), 0 < a.level →
      a.level < ((goSplit dir '/').length : Int) →
      (∀ part ∈ (goSplit dir '/').take a.level.toNat,
        part ≠ [] ∧ part ≠ gs "." ∧ part ≠ gs "..") →
      adjustDirectoryLevel a dir = specFirstNComponents dir a.level.toNat) := by
  have hdeep : ∀ (a : CoverageAnalyzer) (dir : GoStr), 0 < a.level →
      a.level < ((goSplit dir '/').length : Int) →
      adjustDirectoryLevel a dir =
        goJoin ((goSplit dir '/').take a.level.toNat) := by
    intro a dir h0 hlt
    rw [adjustDirectoryLevel, if_pos h0]
    simp only [if_pos hlt]
  refine ⟨?_, ?_, ?_, hdeep, ?_⟩
  · intro pats dir; simp [adjustDirectoryLevel]
  · intro pats dir; simp [adjustDirectoryLevel]
  · intro a dir h0 hle
    have hnlt : ¬ (a.level < ((goSplit dir '/').length : Int)) := by omega
    rw [adjustDirectoryLevel, if_pos h0]
    simp only [if_neg hnlt]
  · intro a dir h0 hlt hplain
    rw [hdeep a dir h0 hlt]
    have hlenpos : (goSplit dir '/').take a.level.toNat ≠ [] := by
      have h1 : a.level.toNat ≠ 0 := by omega
      have h2 : goSplit dir '/' ≠ [] := by
        intro h
        rw [h] at hlt
        simp at hlt
        omega
      rw [ne_eq, List.take_eq_nil_iff]
      simp [h1, h2]
    rw [goJoin_plain_parts _ hlenpos fun part hpart =>
      ⟨(hplain part hpart).1, (hplain part hpart).2.1, (hplain part hpart).2.2,
        goSplit_no_sep (List.mem_of_mem_take hpart)⟩]
    rfl

/-- C3 (witness): the plain-component clause of `adjustDirectoryLevel_spec`
at level 2 on "x/y/z" yields the first two components "x/y". -/
theorem adjustDirectoryLevel_spec_witness :
    adjustDirectoryLevel ⟨2, []⟩ (gs "x/y/z") = gs "x/y" := by
  have h := adjustDirectoryLevel_spec.2.2.2.2 ⟨2, []⟩ (gs "x/y/z")
    (by decide) (by decide) (by decide)
  exact h.trans (by decide)

/-- `alookup` misses exactly when no entry carries the key. -/
theorem alookup_eq_none_iff (k : GoStr) (m : CovMap) :
    alookup k m = none ↔ ∀ kv ∈ m, kv.1 ≠ k := by
  induction m with
  | nil => simp [alookup]
  | cons kv rest ih =>
    rw [alookup]
    by_cases h : kv.1 = k
    · rw [if_pos h]
      simp only [List.forall_mem_cons]
      constructor
      · intro hc; exact absurd hc (by simp)
      · intro hc; exact absurd h hc.1
    · rw [if_neg h]
      simp only [List.forall_mem_cons]
      rw [ih]
      exact ⟨fun hr => ⟨h, hr⟩, fun hc => hc.2⟩

/-- With unique keys, membership determines the lookup. -/
theorem alookup_of_mem_nodup :
    ∀ {m : CovMap}, (m.map Prod.fst).Nodup →
      ∀ {kv : GoStr × DirCoverage}, kv ∈ m → alookup kv.1 m = some kv.2 := by
  intro m
  induction m with
  | nil => intro _ kv hm; simp at hm
  | cons hd rest ih =>
    intro hnd kv hm
    rw [List.map_cons, List.nodup_cons] at hnd
    rcases List.mem_cons.mp hm with rfl | hm2
    · rw [alookup, if_pos rfl]
    · have hne : hd.1 ≠ kv.1 := by
        intro h
        exact hnd.1 (h ▸ List.mem_map_of_mem Prod.fst hm2)
      rw [alookup, if_neg hne]
      exact ih hnd.2 hm2

/-- `alAdjust` does not change the key sequence. -/
theorem alAdjust_keys (m : CovMap) (k : GoStr) (f : DirCoverage → DirCoverage) :
    (alAdjust m k f).map Prod.fst = m.map Prod.fst := by
  induction m with
  | nil => rfl
  | cons kv rest ih =>
    rw [alAdjust, List.map_cons, List.map_cons, List.map_cons]
    rw [alAdjust] at ih
    rw [ih]
    by_cases h : kv.1 = k
    · rw [if_pos h]
    · rw [if_neg h]

/-- Lookup through `alAdjust`. -/
theorem alookup_alAdjust (m : CovMap) (k k2 : GoStr)
    (f : DirCoverage → DirCoverage) :
    alookup k2 (alAdjust m k f) =
      if k2 = k then (alookup k2 m).map f else alookup k2 m := by
  induction m with
  | nil => simp [alAdjust, alookup]
  | cons kv rest ih =>
    rw [alAdjust, List.map_cons, alookup]
    rw [alAdjust] at ih
    by_cases hk : kv.1 = k
    · rw [if_pos hk]
      by_cases hk2 : kv.1 = k2
      · have hk2k : k2 = k := hk2 ▸ hk
        rw [if_pos hk2, if_pos hk2k, alookup, if_pos hk2]
        rfl
      · rw [if_neg hk2, ih, alookup, if_neg hk2]
    · rw [if_neg hk]
      by_cases hk2 : kv.1 = k2
      · have hk2k : ¬ (k2 = k) := fun h => hk (hk2.symm ▸ h)
        rw [if_pos hk2, if_neg hk2k, alookup, if_pos hk2]
      · rw [if_neg hk2, ih, alookup, if_neg hk2]

/-- `alAdjust` on a missing key is the identity. -/
theorem alAdjust_of_none :
    ∀ {m : CovMap} {k : GoStr}, alookup k m = none →
      ∀ (f : DirCoverage → DirCoverage), alAdjust m k f = m := by
  intro m
  induction m with
  | nil => intro k _ f; rfl
  | cons kv rest ih =>
    intro k h f
    rw [alookup] at h
    by_cases hk : kv.1 = k
    · rw [if_pos hk] at h; exact absurd h (by simp)
    · rw [if_neg hk] at h
      rw [alAdjust, List.map_cons, if_neg hk]
      have := ih h f
      rw [alAdjust] at this
      rw [this]

/-- Two `alAdjust`s at the same key compose. -/
theorem alAdjust_comp (m : CovMap) (k : GoStr)
    (f g : DirCoverage → DirCoverage) :
    alAdjust (alAdjust m k f) k g = alAdjust m k (fun c => g (f c)) := by
  induction m with
  | nil => rfl
  | cons kv rest ih =>
    rw [alAdjust, alAdjust, alAdjust, List.map_cons, List.map_cons,
      List.map_cons]
    rw [alAdjust, alAdjust, alAdjust] at ih
    rw [ih]
    by_cases hk : kv.1 = k
    · rw [if_pos hk, if_pos hk, if_pos hk]
    · rw [if_neg hk, if_neg hk, if_neg hk]

/-- `alAdjust` with the identity is the identity. -/
theorem alAdjust_id (m : CovMap) (k : GoStr) :
    alAdjust m k (fun c => c) = m := by
  induction m with
  | nil => rfl
  | cons kv rest ih =>
    rw [alAdjust, List.map_cons]
    rw [alAdjust] at ih
    rw [ih]
    by_cases hk : kv.1 = k
    · rw [if_pos hk]
    · rw [if_neg hk]

/-- `alAdjust` distributes over append. -/
theorem alAdjust_append (m1 m2 : CovMap) (k : GoStr)
    (f : DirCoverage → DirCoverage) :
    alAdjust (m1 ++ m2) k f = alAdjust m1 k f ++ alAdjust m2 k f :=
  List.map_append _ m1 m2

/-- Folding `addBlock` adds the blocks' totals on top of the start value. -/
theorem addBlock_foldl :
    ∀ (blocks : List ProfileBlock) (e : DirCoverage),
      blocks.foldl addBlock e =
        ⟨e.dir,
         e.stmtCount + (blocks.foldl addBlock ⟨[], 0, 0⟩).stmtCount,
         e.stmtCovered + (blocks.foldl addBlock ⟨[], 0, 0⟩).stmtCovered⟩ := by
  intro blocks
  induction blocks with
  | nil => intro e; simp
  | cons b rest ih =>
    intro e
    rw [List.foldl_cons, List.foldl_cons, ih (addBlock e b),
      ih (addBlock ⟨[], 0, 0⟩ b)]
    simp only [addBlock]
    by_cases hc : 0 < b.count
    · simp only [if_pos hc, DirCoverage.mk.injEq, true_and]
      exact ⟨by ring, by ring⟩
    · simp only [if_neg hc, DirCoverage.mk.injEq, true_and]
      exact ⟨by ring, by ring⟩

/-- The per-block loop of the aggregator is one `alAdjust` by the folded
`addBlock`. -/
theorem blockfold_alAdjust (k : GoStr) :
    ∀ (blocks : List ProfileBlock) (m : CovMap),
      blocks.foldl (fun acc b => alAdjust acc k (fun c => addBlock c b)) m =
        alAdjust m k (fun e => blocks.foldl addBlock e) := by
  intro blocks
  induction blocks with
  | nil =>
    intro m
    rw [List.foldl_nil]
    exact (alAdjust_id m k).symm
  | cons b rest ih =>
    intro m
    rw [List.foldl_cons, ih (alAdjust m k fun c => addBlock c b),
      alAdjust_comp]
    rfl

/-- The per-block loop on a singleton map. -/
theorem blockfold_singleton (k : GoStr) (c : DirCoverage)
    (blocks : List ProfileBlock) :
    blocks.foldl (fun acc b => alAdjust acc k (fun c2 => addBlock c2 b))
        [(k, c)] =
      [(k, blocks.foldl addBlock c)] := by
  rw [blockfold_alAdjust]
  simp [alAdjust]

/-- The per-block loop on a map extended with a fresh key. -/
theorem blockfold_append (k : GoStr) (m : CovMap)
    (hk : alookup k m = none) (c : DirCoverage) (blocks : List ProfileBlock) :
    blocks.foldl (fun acc b => alAdjust acc k (fun c2 => addBlock c2 b))
        (m ++ [(k, c)]) =
      m ++ [(k, blocks.foldl addBlock c)] := by
  rw [blockfold_alAdjust, alAdjust_append, alAdjust_of_none hk]
  simp [alAdjust]

/-- The bridge between the sequential and the concurrent per-profile step:
one iteration of the `Aggregate` loop is exactly the merge of the worker's
`processProfile` result into the accumulated map. -/
theorem aggStep_eq_merge (a : CoverageAnalyzer) (m : CovMap) (p : Profile) :
    aggStep a m p = mergeMaps m (processProfile a p) := by
  simp only [aggStep, processProfile]
  by_cases hig : ShouldIgnoreDirectory (goDir p.fileName) a.ignorePatterns
  · rw [if_pos hig, if_pos hig]
    rfl
  · rw [if_neg hig, if_neg hig, blockfold_singleton]
    split
    · next e0 heq =>
      rw [blockfold_alAdjust]
      simp only [mergeMaps, List.foldl_cons, List.foldl_nil, heq]
      congr 1
      funext e
      rw [addBlock_foldl _ e,
        addBlock_foldl _ ⟨adjustDirectoryLevel a (goDir p.fileName), 0, 0⟩]
      simp
    · next heq =>
      rw [blockfold_append _ _ heq]
      simp only [mergeMaps, List.foldl_cons, List.foldl_nil, heq]

/-- The merge of per-profile partial maps, in any accumulator, is the
sequential fold of the `Aggregate` loop body. -/
theorem mergefold_eq_aggfold (a : CoverageAnalyzer) :
    ∀ (profiles : List Profile) (acc : CovMap),
      profiles.foldl (fun acc p => mergeMaps acc (processProfile a p)) acc =
        profiles.foldl (aggStep a) acc := by
  intro profiles
  induction profiles with
  | nil => intro acc; rfl
  | cons p rest ih =>
    intro acc
    rw [List.foldl_cons, List.foldl_cons, ← aggStep_eq_merge, ih]

/-- On a nil-free profile list the `Aggregate` loop runs to completion and
is the plain fold. -/
theorem Aggregate_foldlM_eq (a : CoverageAnalyzer) :
    ∀ (ps : List (Option Profile)) (init : CovMap),
      (none : Option Profile) ∉ ps →
      (ps.foldlM
        (fun m op =>
          match op with
          | none => none
          | some p => some (aggStep a m p))
        init) =
        some ((ps.filterMap id).foldl (aggStep a) init) := by
  intro ps
  induction ps with
  | nil => intro init _; rfl
  | cons op rest ih =>
    intro init h
    cases op with
    | none => exact absurd (List.mem_cons_self none rest) h
    | some p =>
      have h2 : (none : Option Profile) ∉ rest := fun hh =>
        h (List.mem_cons_of_mem _ hh)
      rw [List.foldlM_cons]
      rw [show ((some p :: rest).filterMap id) = p :: rest.filterMap id
        from rfl]
      rw [List.foldl_cons]
      exact ih (aggStep a init p) h2

/-- `Aggregate` on a nil-free list, closed form. -/
theorem Aggregate_eq (a : CoverageAnalyzer) (ps : List (Option Profile))
    (h : (none : Option Profile) ∉ ps) :
    Aggregate a ps = some ((ps.filterMap id).foldl (aggStep a) []) :=
  Aggregate_foldlM_eq a ps [] h

/-- One `Aggregate` step keeps the keys unique. -/
theorem aggStep_keys_nodup (a : CoverageAnalyzer) (p : Profile) {m : CovMap}
    (h : (m.map Prod.fst).Nodup) : ((aggStep a m p).map Prod.fst).Nodup := by
  simp only [aggStep]
  by_cases hig : ShouldIgnoreDirectory (goDir p.fileName) a.ignorePatterns
  · rw [if_pos hig]; exact h
  · rw [if_neg hig, blockfold_alAdjust, alAdjust_keys]
    split
    · next e0 heq => exact h
    · next heq =>
      rw [List.map_append]
      refine List.Nodup.append h (List.nodup_singleton _) ?_
      intro x hx hx2
      simp only [List.map_cons, List.map_nil, List.mem_singleton] at hx2
      subst hx2
      obtain ⟨kv, hkv, hfst⟩ := List.mem_map.mp hx
      exact ((alookup_eq_none_iff _ m).mp heq) kv hkv hfst

/-- The `Aggregate` fold keeps the keys unique. -/
theorem foldl_aggStep_nodup (a : CoverageAnalyzer) :
    ∀ (ps : List Profile) (m : CovMap), (m.map Prod.fst).Nodup →
      (((ps.foldl (aggStep a) m)).map Prod.fst).Nodup := by
  intro ps
  induction ps with
  | nil => intro m h; exact h
  | cons p rest ih =>
    intro m h
    rw [List.foldl_cons]
    exact ih _ (aggStep_keys_nodup a p h)

/-- A map with unique keys is `covMapEqv`-equal to itself. -/
theorem covMapEqv_refl {m : CovMap} (h : (m.map Prod.fst).Nodup) :
    covMapEqv m m = true := by
  rw [covMapEqv, Bool.and_eq_true]
  constructor <;>
    exact List.all_eq_true.mpr fun kv hkv =>
      decide_eq_true (alookup_of_mem_nodup h hkv)

/-- C1 (counterexample): on a 12-entry profile list containing a null, the
concurrent path (over the 10-profile threshold) skips the null and
returns a map, while the sequential `Aggregate` dereferences it and
panics — so the two are not equal on lists with null entries. -/
theorem aggregateConcurrent_null_divergence :
    Aggregate ⟨0, []⟩
        (List.replicate 11 (some ⟨gs "a/b.go", [⟨1, 1, 2, 1, 3, 1⟩]⟩) ++
          [none]) = none ∧
    AggregateConcurrent ⟨0, []⟩
        (List.replicate 11 (some ⟨gs "a/b.go", [⟨1, 1, 2, 1, 3, 1⟩]⟩) ++
          [none]) = some [(gs "a", ⟨gs "a", 33, 33⟩)] ∧
    optCovMapEqv
      (AggregateConcurrent ⟨0, []⟩
        (List.replicate 11 (some ⟨gs "a/b.go", [⟨1, 1, 2, 1, 3, 1⟩]⟩) ++
          [none]))
      (Aggregate ⟨0, []⟩
        (List.replicate 11 (some ⟨gs "a/b.go", [⟨1, 1, 2, 1, 3, 1⟩]⟩) ++
          [none])) = false := by
  refine ⟨by decide, by decide, by decide⟩

/-- C1 (amended): for every profile list without null entries — any size,
any level, any ignore patterns — `AggregateConcurrent` returns a map
exactly equal (as a Go map: same keys, same per-key `DirCoverage`) to the
map returned by `Aggregate`.  With null entries present the two differ
above the 10-profile threshold, where the workers skip nulls but the
sequential loop panics. -/
theorem aggregateConcurrent_eq_aggregate (a : CoverageAnalyzer)
    (ps : List (Option Profile)) (h : (none : Option Profile) ∉ ps) :
    optCovMapEqv (AggregateConcurrent a ps) (Aggregate a ps) = true := by
  have hAgg := Aggregate_eq a ps h
  have hnodup : (((ps.filterMap id).foldl (aggStep a) []).map Prod.fst).Nodup :=
    foldl_aggStep_nodup a _ [] (by simp)
  have hCon : AggregateConcurrent a ps =
      some ((ps.filterMap id).foldl (aggStep a) []) := by
    rw [AggregateConcurrent]
    by_cases hlen : ps.length ≤ 10
    · rw [if_pos hlen]; exact hAgg
    · rw [if_neg hlen, mergefold_eq_aggfold]
  rw [hAgg, hCon]
  simp only [optCovMapEqv]
  exact covMapEqv_refl hnodup

/-- C1 (witness): an 11-profile nil-free list (over the concurrency
threshold) on which the concurrent and sequential aggregations agree. -/
theorem aggregateConcurrent_eq_aggregate_witness :
    optCovMapEqv
      (AggregateConcurrent ⟨0, []⟩
        (List.replicate 11 (some ⟨gs "a/b.go", [⟨1, 1, 2, 1, 3, 1⟩]⟩)))
      (Aggregate ⟨0, []⟩
        (List.replicate 11 (some ⟨gs "a/b.go", [⟨1, 1, 2, 1, 3, 1⟩]⟩))) =
      true :=
  aggregateConcurrent_eq_aggregate ⟨0, []⟩
    (List.replicate 11 (some ⟨gs "a/b.go", [⟨1, 1, 2, 1, 3, 1⟩]⟩))
    (by decide)

/-- The `Aggregate` loop panics as soon as the list holds a nil entry. -/
theorem Aggregate_foldlM_none (a : CoverageAnalyzer) :
    ∀ (ps : List (Option Profile)) (init : CovMap),
      (none : Option Profile) ∈ ps →
      (ps.foldlM
        (fun m op =>
          match op with
          | none => none
          | some p => some (aggStep a m p))
        init) = none := by
  intro ps
  induction ps with
  | nil => intro init h; simp at h
  | cons op rest ih =>
    intro init h
    cases op with
    | none => rfl
    | some p =>
      have h2 : (none : Option Profile) ∈ rest := by
        rcases List.mem_cons.mp h with h1 | h1
        · exact absurd h1.symm (by simp)
        · exact h1
      rw [List.foldlM_cons]
      exact ih (aggStep a init p) h2

/-- `Aggregate` panics on a null entry. -/
theorem Aggregate_none_of_mem (a : CoverageAnalyzer)
    (ps : List (Option Profile)) (h : (none : Option Profile) ∈ ps) :
    Aggregate a ps = none :=
  Aggregate_foldlM_none a ps [] h

/-- C2 (counterexample): `Aggregate` on a list with a null entry panics
(nil-pointer dereference, modelled `none`) instead of skipping it — it
does not equal the aggregation of the list with the null removed, which
returns a map. -/
theorem aggregate_panics_on_null :
    Aggregate ⟨0, []⟩ [some ⟨gs "pkg/a.go", [⟨1, 1, 2, 1, 3, 1⟩]⟩, none] =
      none ∧
    Aggregate ⟨0, []⟩ [some ⟨gs "pkg/a.go", [⟨1, 1, 2, 1, 3, 1⟩]⟩] =
      some [(gs "pkg", ⟨gs "pkg", 3, 3⟩)] := by
  exact ⟨by decide, by decide⟩

/-- C2 (amended): the sequential `Aggregate` panics on every list
containing a null entry (and `AggregateConcurrent` delegates to it at or
below 10 entries, so it panics there too); only `AggregateConcurrent`
above the 10-entry threshold skips null entries silently, and there its
result equals the aggregation of the list with the nulls removed. -/
theorem aggregate_null_behavior :
    (∀ (a : CoverageAnalyzer) (ps : List (Option Profile)),
      (none : Option Profile) ∈ ps → Aggregate a ps = none) ∧
    (∀ (a : CoverageAnalyzer) (ps : List (Option Profile)),
      10 < ps.length →
      optCovMapEqv (AggregateConcurrent a ps)
        (Aggregate a ((ps.filterMap id).map some)) = true) := by
  constructor
  · exact Aggregate_none_of_mem
  · intro a ps hlen
    have hno : (none : Option Profile) ∉ (ps.filterMap id).map some := by
      simp
    have hAgg := Aggregate_eq a _ hno
    have hfm : ((ps.filterMap id).map some).filterMap id = ps.filterMap id := by
      rw [List.filterMap_map]
      exact List.filterMap_some _
    rw [hfm] at hAgg
    have hnodup := foldl_aggStep_nodup a (ps.filterMap id) [] (by simp)
    have hCon : AggregateConcurrent a ps =
        some ((ps.filterMap id).foldl (aggStep a) []) := by
      rw [AggregateConcurrent, if_neg (by omega), mergefold_eq_aggfold]
    rw [hAgg, hCon]
    simp only [optCovMapEqv]
    exact covMapEqv_refl hnodup

/-- C2 (witness): `aggregate_null_behavior` at concrete inputs: a 2-entry
list with a null panics under `Aggregate`; a 12-entry list with a null is
aggregated by `AggregateConcurrent` exactly like the 11 non-null entries. -/
theorem aggregate_null_behavior_witness :
    Aggregate ⟨0, []⟩
        ([some ⟨gs "pkg/a.go", [⟨1, 1, 2, 1, 3, 1⟩]⟩, none] :
          List (Option Profile)) = none ∧
    optCovMapEqv
      (AggregateConcurrent ⟨0, []⟩
        (List.replicate 11
            (some (⟨gs "a/b.go", [⟨1, 1, 2, 1, 3, 1⟩]⟩ : Profile)) ++
          [none]))
      (Aggregate ⟨0, []⟩
        (((List.replicate 11
              (some (⟨gs "a/b.go", [⟨1, 1, 2, 1, 3, 1⟩]⟩ : Profile)) ++
            [none]).filterMap id).map some)) = true := by
  constructor
  · exact aggregate_null_behavior.1 ⟨0, []⟩
      [some ⟨gs "pkg/a.go", [⟨1, 1, 2, 1, 3, 1⟩]⟩, none] (by decide)
  · exact aggregate_null_behavior.2 ⟨0, []⟩
      (List.replicate 11
          (some (⟨gs "a/b.go", [⟨1, 1, 2, 1, 3, 1⟩]⟩ : Profile)) ++
        [none]) (by decide)

/-- `addBlock` preserves `0 ≤ covered ≤ total` when the statement count is
non-negative. -/
theorem addBlock_bounds {c : DirCoverage} {b : ProfileBlock}
    (hb : 0 ≤ b.numStmt)
    (hc : 0 ≤ c.stmtCovered ∧ c.stmtCovered ≤ c.stmtCount) :
    0 ≤ (addBlock c b).stmtCovered ∧
      (addBlock c b).stmtCovered ≤ (addBlock c b).stmtCount := by
  unfold addBlock
  split
  · dsimp only
    omega
  · dsimp only
    omega

/-- Folding `addBlock` preserves the bounds. -/
theorem foldl_addBlock_bounds :
    ∀ (blocks : List ProfileBlock), (∀ b ∈ blocks, 0 ≤ b.numStmt) →
      ∀ (c : DirCoverage),
        0 ≤ c.stmtCovered ∧ c.stmtCovered ≤ c.stmtCount →
        0 ≤ (blocks.foldl addBlock c).stmtCovered ∧
          (blocks.foldl addBlock c).stmtCovered ≤
            (blocks.foldl addBlock c).stmtCount := by
  intro blocks
  induction blocks with
  | nil => intro _ c hc; exact hc
  | cons b rest ih =>
    intro hb c hc
    rw [List.foldl_cons]
    exact ih (fun b2 hb2 => hb b2 (List.mem_cons_of_mem b hb2)) _
      (addBlock_bounds (hb b (List.mem_cons_self b rest)) hc)

/-- `alAdjust` preserves a per-entry bound if the update does. -/
theorem alAdjust_bounds {m : CovMap}
    (hm : ∀ kv ∈ m, 0 ≤ kv.2.stmtCovered ∧ kv.2.stmtCovered ≤ kv.2.stmtCount)
    (k : GoStr) {f : DirCoverage → DirCoverage}
    (hf : ∀ c, 0 ≤ c.stmtCovered ∧ c.stmtCovered ≤ c.stmtCount →
      0 ≤ (f c).stmtCovered ∧ (f c).stmtCovered ≤ (f c).stmtCount) :
    ∀ kv ∈ alAdjust m k f,
      0 ≤ kv.2.stmtCovered ∧ kv.2.stmtCovered ≤ kv.2.stmtCount := by
  intro kv hkv
  obtain ⟨kv0, hkv0, heq⟩ := List.mem_map.mp hkv
  by_cases h : kv0.1 = k
  · rw [if_pos h] at heq
    rw [← heq]
    exact hf kv0.2 (hm kv0 hkv0)
  · rw [if_neg h] at heq
    rw [← heq]
    exact hm kv0 hkv0

/-- One `Aggregate` step preserves the per-entry bounds when the profile's
statement counts are non-negative. -/
theorem aggStep_bounds (a : CoverageAnalyzer) (p : Profile) {m : CovMap}
    (hp : ∀ b ∈ p.blocks, 0 ≤ b.numStmt)
    (hm : ∀ kv ∈ m, 0 ≤ kv.2.stmtCovered ∧ kv.2.stmtCovered ≤ kv.2.stmtCount) :
    ∀ kv ∈ aggStep a m p,
      0 ≤ kv.2.stmtCovered ∧ kv.2.stmtCovered ≤ kv.2.stmtCount := by
  simp only [aggStep]
  by_cases hig : ShouldIgnoreDirectory (goDir p.fileName) a.ignorePatterns
  · rw [if_pos hig]; exact hm
  · rw [if_neg hig, blockfold_alAdjust]
    apply alAdjust_bounds ?_ _ (fun c hc => foldl_addBlock_bounds p.blocks hp c hc)
    split
    · next e0 heq => exact hm
    · next heq =>
      intro kv hkv
      rcases List.mem_append.mp hkv with h1 | h1
      · exact hm kv h1
      · rw [List.mem_singleton] at h1
        rw [h1]
        exact ⟨le_refl 0, le_refl 0⟩

/-- The `Aggregate` fold preserves the per-entry bounds. -/
theorem foldl_aggStep_bounds (a : CoverageAnalyzer) :
    ∀ (profiles : List Profile) (m : CovMap),
      (∀ p ∈ profiles, ∀ b ∈ p.blocks, 0 ≤ b.numStmt) →
      (∀ kv ∈ m, 0 ≤ kv.2.stmtCovered ∧ kv.2.stmtCovered ≤ kv.2.stmtCount) →
      ∀ kv ∈ profiles.foldl (aggStep a) m,
        0 ≤ kv.2.stmtCovered ∧ kv.2.stmtCovered ≤ kv.2.stmtCount := by
  intro profiles
  induction profiles with
  | nil => intro m _ hm; exact hm
  | cons p rest ih =>
    intro m hp hm
    rw [List.foldl_cons]
    exact ih _ (fun q hq => hp q (List.mem_cons_of_mem p hq))
      (aggStep_bounds a p (hp p (List.mem_cons_self p rest)) hm)

/-- C9: whenever `Aggregate` or `AggregateConcurrent` returns a map (its
blocks' statement counts being non-negative, as every parsed coverage
profile's are), every `DirCoverage` entry satisfies
`0 ≤ covered ≤ total`. -/
theorem aggregate_covered_le_total :
    ∀ (a : CoverageAnalyzer) (ps : List (Option Profile)),
      blocksNonNeg ps = true →
      (Aggregate a ps).all covBoundsOk = true ∧
      (AggregateConcurrent a ps).all covBoundsOk = true := by
  intro a ps hnn
  have hnn2 : ∀ p ∈ ps.filterMap id, ∀ b ∈ p.blocks, 0 ≤ b.numStmt := by
    intro p hp b hb
    obtain ⟨op, hop, hope⟩ := List.mem_filterMap.mp hp
    have h1 := List.all_eq_true.mp hnn op hop
    rw [show op = some p from hope] at h1
    have h2 : ∀ b2 ∈ p.blocks, 0 ≤ b2.numStmt := by
      simpa [Option.all] using h1
    exact h2 b hb
  have hbounds : covBoundsOk ((ps.filterMap id).foldl (aggStep a) []) = true := by
    apply List.all_eq_true.mpr
    intro kv hkv
    have h := foldl_aggStep_bounds a (ps.filterMap id) [] hnn2 (by simp) kv hkv
    rw [Bool.and_eq_true]
    exact ⟨decide_eq_true h.1, decide_eq_true h.2⟩
  have hA : (Aggregate a ps).all covBoundsOk = true := by
    by_cases hmem : (none : Option Profile) ∈ ps
    · rw [Aggregate_none_of_mem a ps hmem]
      rfl
    · rw [Aggregate_eq a ps hmem]
      simpa [Option.all] using hbounds
  refine ⟨hA, ?_⟩
  rw [AggregateConcurrent]
  by_cases hlen : ps.length ≤ 10
  · rw [if_pos hlen]
    exact hA
  · rw [if_neg hlen, mergefold_eq_aggfold]
    simpa [Option.all] using hbounds

/-- C9 (witness): `aggregate_covered_le_total` at a concrete 2-profile
input with partially covered blocks. -/
theorem aggregate_covered_le_total_witness :
    (Aggregate ⟨0, []⟩
        ([some ⟨gs "pkg/a.go", [⟨1, 1, 2, 1, 3, 1⟩, ⟨3, 1, 5, 1, 4, 0⟩]⟩,
          some ⟨gs "pkg/b.go", [⟨1, 1, 2, 1, 2, 0⟩]⟩] :
          List (Option Profile))).all covBoundsOk = true ∧
    (AggregateConcurrent ⟨0, []⟩
        ([some ⟨gs "pkg/a.go", [⟨1, 1, 2, 1, 3, 1⟩, ⟨3, 1, 5, 1, 4, 0⟩]⟩,
          some ⟨gs "pkg/b.go", [⟨1, 1, 2, 1, 2, 0⟩]⟩] :
          List (Option Profile))).all covBoundsOk = true :=
  aggregate_covered_le_total ⟨0, []⟩
    [some ⟨gs "pkg/a.go", [⟨1, 1, 2, 1, 3, 1⟩, ⟨3, 1, 5, 1, 4, 0⟩]⟩,
      some ⟨gs "pkg/b.go", [⟨1, 1, 2, 1, 2, 0⟩]⟩] (by decide)

/-- Lookup across an append: the left map wins. -/
theorem alookup_append (k : GoStr) (m1 m2 : CovMap) :
    alookup k (m1 ++ m2) =
      match alookup k m1 with
      | some v => some v
      | none => alookup k m2 := by
  induction m1 with
  | nil => rfl
  | cons kv rest ih =>
    rw [List.cons_append, alookup, alookup]
    by_cases hk : kv.1 = k
    · rw [if_pos hk, if_pos hk]
    · rw [if_neg hk, if_neg hk, ih]

/-- Per-key effect of merging one worker's singleton partial map. -/
theorem alookup_mergeOne (acc : CovMap) (k0 : GoStr) (v : DirCoverage)
    (k : GoStr) :
    alookup k (mergeMaps acc [(k0, v)]) =
      if k = k0 then
        match alookup k acc with
        | some c =>
          some ⟨c.dir, c.stmtCount + v.stmtCount,
            c.stmtCovered + v.stmtCovered⟩
        | none => some ⟨v.dir, v.stmtCount, v.stmtCovered⟩
      else alookup k acc := by
  rw [show mergeMaps acc [(k0, v)] =
      (match alookup k0 acc with
       | some _ =>
         alAdjust acc k0 fun e =>
           { e with stmtCount := e.stmtCount + v.stmtCount,
                    stmtCovered := e.stmtCovered + v.stmtCovered }
       | none => acc ++ [(k0, ⟨v.dir, v.stmtCount, v.stmtCovered⟩)])
    from rfl]
  by_cases hk : k = k0
  · subst hk
    cases hacc : alookup k acc with
    | some c =>
      rw [alookup_alAdjust, if_pos rfl, hacc]
      simp
    | none =>
      rw [alookup_append, hacc]
      simp [alookup]
  · cases hacc : alookup k0 acc with
    | some c =>
      rw [alookup_alAdjust, if_neg hk, if_neg hk]
    | none =>
      rw [alookup_append, if_neg hk]
      cases hacck : alookup k acc with
      | some c2 => rfl
      | none =>
        rw [alookup, if_neg (fun h => hk h.symm)]
        rfl

/-- Per-key view of the whole merge phase, when every partial map is empty
or a singleton whose value records its own key (the shape `processProfile`
produces). -/
theorem alookup_foldl_merge :
    ∀ (parts : List CovMap) (acc : CovMap) (k : GoStr),
      (∀ part ∈ parts, part = [] ∨
        ∃ kv : GoStr × DirCoverage, part = [kv]) →
      alookup k (parts.foldl mergeMaps acc) =
        parts.foldl
          (fun r part =>
            match alookup k part with
            | none => r
            | some v =>
              match r with
              | some c =>
                some ⟨c.dir, c.stmtCount + v.stmtCount,
                  c.stmtCovered + v.stmtCovered⟩
              | none => some ⟨v.dir, v.stmtCount, v.stmtCovered⟩)
          (alookup k acc) := by
  intro parts
  induction parts with
  | nil => intro acc k _; rfl
  | cons part rest ih =>
    intro acc k hok
    rw [List.foldl_cons, List.foldl_cons,
      ih _ k (fun q hq => hok q (List.mem_cons_of_mem part hq))]
    congr 1
    rcases hok part (List.mem_cons_self part rest) with rfl | ⟨kv, rfl⟩
    · rfl
    · rw [alookup_mergeOne acc kv.1 kv.2 k]
      by_cases hk : k = kv.1
      · have hl : alookup k [kv] = some kv.2 := by
          subst hk; simp [alookup]
        rw [if_pos hk, hl]
      · have hl : alookup k [kv] = none := by
          have hkk : kv.1 ≠ k := fun h => hk h.symm
          simp [alookup, hkk]
        rw [if_neg hk, hl]

/-- A successful lookup exhibits its entry. -/
theorem alookup_mem :
    ∀ {m : CovMap} {k : GoStr} {v : DirCoverage},
      alookup k m = some v → (k, v) ∈ m := by
  intro m
  induction m with
  | nil => intro k v h; exact absurd h (by simp [alookup])
  | cons kv rest ih =>
    intro k v h
    rw [alookup] at h
    by_cases hk : kv.1 = k
    · rw [if_pos hk] at h
      have hv : kv.2 = v := by simpa using h
      subst hk
      rw [← hv]
      exact List.mem_cons_self kv rest
    · rw [if_neg hk] at h
      exact List.mem_cons_of_mem kv (ih h)

/-- Each worker's partial map is empty or a singleton whose stored
`DirCoverage` records its own key. -/
theorem processProfile_shape (a : CoverageAnalyzer) (p : Profile) :
    (processProfile a p = [] ∨
      ∃ kv : GoStr × DirCoverage, processProfile a p = [kv]) ∧
    (∀ kv ∈ processProfile a p, kv.2.dir = kv.1) := by
  simp only [processProfile]
  by_cases hig : ShouldIgnoreDirectory (goDir p.fileName) a.ignorePatterns
  · rw [if_pos hig]
    exact ⟨Or.inl rfl, by intro kv h; simp at h⟩
  · rw [if_neg hig, blockfold_singleton]
    refine ⟨Or.inr ⟨_, rfl⟩, ?_⟩
    intro kv hkv
    rw [List.mem_singleton] at hkv
    subst hkv
    dsimp only
    rw [addBlock_foldl]

/-- Order-independence of the merge phase: merging the workers' partial
maps in any completion order produces the same map (same lookups at every
key).  Together with `processProfile_shape` this justifies modelling the
nondeterministic worker pool of `AggregateConcurrent` by the input-order
merge. -/
theorem mergeMaps_fold_perm :
    ∀ (parts1 parts2 : List CovMap), parts1.Perm parts2 →
      (∀ part ∈ parts1, part = [] ∨
        ∃ kv : GoStr × DirCoverage, part = [kv]) →
      (∀ part ∈ parts1, ∀ kv ∈ part, kv.2.dir = kv.1) →
      ∀ k, alookup k (parts1.foldl mergeMaps []) =
        alookup k (parts2.foldl mergeMaps []) := by
  intro parts1 parts2 hperm hshape hdir k
  have hshape2 : ∀ part ∈ parts2, part = [] ∨
      ∃ kv : GoStr × DirCoverage, part = [kv] :=
    fun part hp => hshape part (hperm.mem_iff.mpr hp)
  rw [alookup_foldl_merge parts1 [] k hshape,
    alookup_foldl_merge parts2 [] k hshape2]
  apply hperm.foldl_eq' ?_ (alookup k ([] : CovMap))
  intro x hx y hy z
  dsimp only
  cases hvx : alookup k x with
  | none =>
    cases hvy : alookup k y with
    | none => rfl
    | some v2 => rfl
  | some v1 =>
    cases hvy : alookup k y with
    | none => rfl
    | some v2 =>
      have hd1 : v1.dir = k := hdir x hx (k, v1) (alookup_mem hvx)
      have hd2 : v2.dir = k := hdir y hy (k, v2) (alookup_mem hvy)
      cases z with
      | none =>
        have heq : (⟨v1.dir, v1.stmtCount + v2.stmtCount,
              v1.stmtCovered + v2.stmtCovered⟩ : DirCoverage) =
            ⟨v2.dir, v2.stmtCount + v1.stmtCount,
              v2.stmtCovered + v1.stmtCovered⟩ := by
          rw [hd1, hd2]
          simp only [DirCoverage.mk.injEq, true_and]
          constructor <;> ring
        exact congrArg some heq
      | some c =>
        have heq : (⟨c.dir, c.stmtCount + v1.stmtCount + v2.stmtCount,
              c.stmtCovered + v1.stmtCovered + v2.stmtCovered⟩ :
                DirCoverage) =
            ⟨c.dir, c.stmtCount + v2.stmtCount + v1.stmtCount,
              c.stmtCovered + v2.stmtCovered + v1.stmtCovered⟩ := by
          simp only [DirCoverage.mk.injEq, true_and]
          constructor <;> ring
        exact congrArg some heq
